import Mathlib

/-!
Shallow embedding of the B-Zone connection-logs scripts
(`connectionLogsGrabber.py`, `multiAccountChecker.py`) and proofs about the
claims of the specification.  Python dictionaries are modelled as
association lists in insertion order, Python sets as duplicate-free lists
with membership-guarded insertion, JSON documents as the inductive `JValue`,
and Python string comparison as lexicographic comparison of code points.
-/

/-- Lexicographic strict comparison of two character lists by code point;
this is Python's `<` on strings (`"a" < "b"`), used both for timestamp
comparison and as a helper for the descending sort in `print_results`. -/
def charsLt : List Char → List Char → Bool
  | _, [] => false
  | [], _ :: _ => true
  | a :: as, b :: bs =>
    if a.toNat < b.toNat then true
    else if b.toNat < a.toNat then false
    else charsLt as bs

/-- Substring containment on character lists: Python's `needle in hay` on
strings (`"YOUR_USERNAME" in current_username`). -/
def containsSub : List Char → List Char → Bool
  | needle, [] => needle.isEmpty
  | needle, c :: rest => needle.isPrefixOf (c :: rest) || containsSub needle rest

/-- A parsed JSON document, as produced by Python's `json.load` /
`json.loads`: objects keep their key/value pairs in insertion order and
(being parsed dicts) have unique keys; numbers are modelled as integers
(the scripts never do arithmetic on them). -/
inductive JValue where
  | null : JValue
  | bool (b : Bool) : JValue
  | num (n : Int) : JValue
  | str (s : String) : JValue
  | arr (elems : List JValue) : JValue
  | obj (fields : List (String × JValue)) : JValue

/-- Key lookup in a parsed JSON object: Python's `raw_data['key']` /
`'key' in raw_data` (first match; parsed dicts have unique keys anyway). -/
def lookupJ (key : String) : List (String × JValue) → Option JValue
  | [] => none
  | (k, v) :: rest => if k = key then some v else lookupJ key rest

/-- Python's `str()` applied to a JSON value (`str(entry['user_id'])` in
`load_processed_user_ids`).  Scalar renderings are exact; composite values
(lists/dicts) are abbreviated because the harvester only ever writes
numeric-string `user_id` values and no claim depends on that rendering. -/
def strOf : JValue → String
  | .str s => s
  | .num n => toString n
  | .bool b => if b then "True" else "False"
  | .null => "None"
  | .arr _ => "[...]"
  | .obj _ => "\x7b...\x7d"

/-- The observable state of the output/checkpoint file when a script starts:
absent (`FileNotFoundError`), unreadable for any other reason (the blanket
`except Exception` branch), or present with a body that either fails JSON
parsing (`content none`, i.e. `json.JSONDecodeError`) or parses to a value. -/
inductive FileState where
  | absent : FileState
  | unreadable : FileState
  | content (parsed : Option JValue) : FileState

/-- Python `set.add`: insert an element only if it is not already present.
Only membership in the resulting set is ever consumed, so a duplicate-free
list is a faithful model. -/
def insertId (s : List String) (x : String) : List String :=
  if x ∈ s then s else s ++ [x]

/-- The loop body of `load_processed_user_ids`: walk the parsed entry list,
and for every entry that is a dict containing a `user_id` key, add
`str(entry['user_id'])` to the set; every other entry is skipped. -/
def idsFromEntries : List String → List JValue → List String
  | s, [] => s
  | s, e :: rest =>
    match e with
    | .obj fields =>
      match lookupJ "user_id" fields with
      | some v => idsFromEntries (insertId s (strOf v)) rest
      | none => idsFromEntries s rest
    | _ => idsFromEntries s rest

/-- Model of `load_processed_user_ids` (connectionLogsGrabber.py:214-246): load the
output file and return the set of user ids that already have an entry.
A missing file, a JSON decode error, and any other read failure all return
the empty set; a parsed body that is not a list either iterates over
non-dict elements (dict keys, string characters — all skipped) or raises
`TypeError`, which the blanket `except Exception` turns into the empty set,
so every non-list shape also yields the empty set. -/
def load_processed_user_ids : FileState → List String
  | .absent => []
  | .unreadable => []
  | .content none => []
  | .content (some (.arr entries)) => idsFromEntries [] entries
  | .content (some _) => []

/-- The pending queue (connectionLogsGrabber.py:318-320):
`[uid for uid in all_user_ids_from_file if uid not in processed_user_ids_set]`. -/
def pendingOf (input : List String) (done : List String) : List String :=
  input.filter (fun uid => decide (uid ∉ done))

/-- Python `str.isdigit` on a whitespace-split token (ASCII digits; the
empty string is not a digit string). -/
def isDigitToken (s : String) : Bool :=
  !s.isEmpty && s.data.all Char.isDigit

/-- Model of `read_ids_from_file` (connectionLogsGrabber.py:200-212) applied to the
whitespace-split token list of the id file: keep the digit-string tokens.
A missing or unreadable id file is modelled by the empty token list, which
is what the function's error branches return. -/
def read_ids_from_file (tokens : List String) : List String :=
  tokens.filter isDigitToken

/-- Model of `math.ceil(len(ids_to_process_queue) / num_active_drivers)`
(connectionLogsGrabber.py:347) as exact ceiling division on naturals. -/
def ids_per_driver (n K : Nat) : Nat := (n + K - 1) / K

/-- The batch construction loop (connectionLogsGrabber.py:349-355): for each
driver index `i` take the slice `pending[i*c : i*c + c]` with
`c = ids_per_driver`, keeping only the non-empty slices. -/
def id_batches (pending : List String) (K : Nat) : List (List String) :=
  let c := ids_per_driver pending.length K
  ((List.range K).map (fun i => (pending.drop (i * c)).take c)).filter
    (fun b => !b.isEmpty)

/-- Python truthiness test `not s` for an optional credential string:
true when the value is missing (`None`) or the empty string. -/
def pyFalsy : Option String → Bool
  | none => true
  | some s => s == ""

/-- The credential guard (connectionLogsGrabber.py:306):
`not current_username or not current_password or
"YOUR_USERNAME" in current_username or "YOUR_PASSWORD" in current_password`.
The containment tests are only reached when the credential is a string, so
`getD ""` is immaterial. -/
def credentials_abort (u p : Option String) : Bool :=
  pyFalsy u || pyFalsy p ||
    containsSub "YOUR_USERNAME".data ((u.getD "").data) ||
    containsSub "YOUR_PASSWORD".data ((p.getD "").data)

/-- Outcome of the pre-session part of `__main__`
(connectionLogsGrabber.py:303-324): either an abort with exit code 1 before
any WebDriver is created, an exit 0 for an empty id list or a fully
processed id list, or proceeding to session creation with the pending
queue. -/
inductive PreflightOutcome where
  | abortMissingCredentials : PreflightOutcome
  | exitNoIds : PreflightOutcome
  | exitAllProcessed : PreflightOutcome
  | proceed (queue : List String) : PreflightOutcome
deriving DecidableEq

/-- Model of `__main__` up to (and excluding) browser-instance creation
(connectionLogsGrabber.py:303-324), in the source's order: credential
guard, id-file read, resume filter. -/
def main_preflight (u p : Option String) (tokens : List String)
    (store : FileState) : PreflightOutcome :=
  if credentials_abort u p then .abortMissingCredentials
  else
    let ids := read_ids_from_file tokens
    if ids.isEmpty then .exitNoIds
    else
      let queue := pendingOf ids (load_processed_user_ids store)
      if queue.isEmpty then .exitAllProcessed else .proceed queue

/-- The claim's reading of the credential guard ("missing/empty, or either
credential equals a known placeholder value"), stated from the claim's
words for comparison with `credentials_abort`. -/
def claimCredentialAbort (u p : Option String) : Prop :=
  u = none ∨ u = some "" ∨ p = none ∨ p = some "" ∨
  u = some "YOUR_USERNAME" ∨ u = some "YOUR_PASSWORD" ∨
  p = some "YOUR_USERNAME" ∨ p = some "YOUR_PASSWORD"

instance (u p : Option String) : Decidable (claimCredentialAbort u p) := by
  unfold claimCredentialAbort; infer_instance

/-- The `user_id` key of one element of the persisted result list
(an element contributes a key only when it is a dict with a `user_id`
field, as in `save_results_to_json`'s read-back loop). -/
def entryKey : JValue → Option JValue
  | .obj fields => lookupJ "user_id" fields
  | _ => none

/-- How a completed batch is merged into the in-memory result list
(connectionLogsGrabber.py:391): `final_results_list.extend(batch_results)` —
a plain append. -/
def mergeResults (snapshot newEntries : List JValue) : List JValue :=
  snapshot ++ newEntries

/-- The snapshot is a mapping with unique WorkItemId keys: no two entries
carry the same `user_id`. -/
def uniqueEntryKeys (snapshot : List JValue) : Prop :=
  (snapshot.filterMap entryKey).Nodup

/-- The on-disk states of the store file reachable if the process crashes
at an arbitrary point of `save_results_to_json`
(connectionLogsGrabber.py:280-281).  The function opens the target with
`open(filename, 'w')` — which truncates the file in place the moment it is
opened — and then streams `json.dump` into it, so the reachable states are:
the prior content (crash before the open), and every prefix of the new
serialized content (crash after the open with some bytes flushed; zero
bytes gives the empty file).  `none` models an absent file (no persist ever
ran); contents are byte strings modelled as character lists. -/
def persistWriteStates (old : Option (List Char)) (newContent : List Char) :
    List (Option (List Char)) :=
  old :: (List.range (newContent.length + 1)).map
    (fun k => some (newContent.take k))

/-- One observed step of the page-fetch loop in `search_and_fetch_logs_for_id`
(connectionLogsGrabber.py:153-172), as seen at the loop head.  `page recs`
is a captured non-empty decoded page that gets extended onto `user_logs`;
`emptyPage` is a missed capture or an empty decode (`page_data is None or
not page_data`), which breaks the loop; `lastPage` is the disabled
next-page control; `paginationError` is any failure interacting with the
next-page control (the inner `except Exception: break`); `exception` is an
unanticipated exception reaching the outer handler, which returns the
accumulated list untruncated (line 179).  An exception can only be raised
at the loop head or inside a capture/pagination call — never between
`user_logs.extend(...)` and the `if len(user_logs) >= max_logs` check,
which are adjacent non-raising statements — so `exception` is an
iteration-boundary event. -/
inductive FetchEvent where
  | page (recs : List JValue) : FetchEvent
  | emptyPage : FetchEvent
  | lastPage : FetchEvent
  | paginationError : FetchEvent
  | exception : FetchEvent

/-- The `while len(user_logs) < max_logs` loop of
`search_and_fetch_logs_for_id` together with its two return sites: the
normal return `user_logs[:max_logs]` (line 175) and the exception return
`user_logs` (line 179).  `acc` is the running `user_logs` list; the event
list is the sequence of loop observations. -/
def fetchRun (maxLogs : Nat) : List FetchEvent → List JValue → List JValue
  | evs, acc =>
    if maxLogs ≤ acc.length then acc.take maxLogs
    else
      match evs with
      | [] => acc.take maxLogs
      | .exception :: _ => acc
      | .emptyPage :: _ => acc.take maxLogs
      | .lastPage :: _ => acc.take maxLogs
      | .paginationError :: _ => acc.take maxLogs
      | .page recs :: rest =>
        if maxLogs ≤ (acc ++ recs).length then (acc ++ recs).take maxLogs
        else fetchRun maxLogs rest (acc ++ recs)

/-- Response-body decoding in `capture_latest_data_request`
(connectionLogsGrabber.py:117-121): `none` for a body that fails
`json.loads`; for a parsed value, the `data` field's list if the value is a
dict with a list-valued `data` key, the value itself if it is a list, and
`None` (here `none`) for every other shape. -/
def decodePage (parsed : Option JValue) : Option (List JValue) :=
  match parsed with
  | none => none
  | some raw =>
    match raw with
    | .obj fields =>
      match lookupJ "data" fields with
      | some (.arr l) => some l
      | _ => none
    | .arr l => some l
    | _ => none

/-- How the fetch loop consumes a decode result
(connectionLogsGrabber.py:155-157): `page_data is None or not page_data`
breaks the loop exactly like an empty page, otherwise the records are
extended onto `user_logs`. -/
def pageEventOf (parsed : Option JValue) : FetchEvent :=
  match decodePage parsed with
  | none => .emptyPage
  | some [] => .emptyPage
  | some recs => .page recs

/-- The per-user value of the correlation maps in `analyze_data`
(multiAccountChecker.py:76-78): a usage count and the lexically greatest
timestamp seen, with defaultdict default `count = 0`, `last_seen = ''`. -/
structure Stats where
  count : Nat
  lastSeen : String
deriving DecidableEq

/-- One harvested log record as consumed by `analyze_data`
(multiAccountChecker.py:81-85): only the five fields read through
`record.get(...)` matter; each may be absent (`None`).  Other fields of the
raw record are opaque and never read, so they are omitted. -/
structure LogRecord where
  userId : Option String
  hwid : Option String
  socialClubId : Option String
  ip : Option String
  timestamp : Option String
deriving DecidableEq

/-- The `defaultdict` update of one user's stats (multiAccountChecker.py:91-93):
`count += 1`, and `last_seen = timestamp` when `timestamp > last_seen`
(Python string comparison, modelled by `charsLt`). -/
def bumpStats (st : Stats) (ts : String) : Stats :=
  { count := st.count + 1,
    lastSeen := if charsLt st.lastSeen.data ts.data then ts else st.lastSeen }

/-- Update the inner `userId -> stats` dict for one observation, inserting a
fresh user at the end (Python dicts keep insertion order) with the
defaultdict default `{count: 0, last_seen: ''}` before bumping. -/
def updateUser : List (String × Stats) → String → String → List (String × Stats)
  | [], uid, ts => [(uid, bumpStats ⟨0, ""⟩ ts)]
  | (u, st) :: rest, uid, ts =>
    if u = uid then (u, bumpStats st ts) :: rest
    else (u, st) :: updateUser rest uid ts

/-- Update one identifier map (`hwid_map` / `social_club_map` / `ip_map`)
for one observation of identifier value `v` by user `uid` at time `ts`,
inserting a fresh value at the end. -/
def updateField :
    List (String × List (String × Stats)) → String → String → String →
    List (String × List (String × Stats))
  | [], v, uid, ts => [(v, updateUser [] uid ts)]
  | (w, inner) :: rest, v, uid, ts =>
    if w = v then (w, updateUser inner uid ts) :: rest
    else (w, inner) :: updateField rest v uid ts

/-- The per-record body of `analyze_data`'s scan loop
(multiAccountChecker.py:80-103) for one of the three identifier fields:
records whose `userId` or `timestamp` is missing are skipped entirely, and
otherwise the field's map is updated when the field is present. -/
def stepRecord (field : LogRecord → Option String)
    (m : List (String × List (String × Stats))) (r : LogRecord) :
    List (String × List (String × Stats)) :=
  match r.userId, r.timestamp with
  | some uid, some ts =>
    match field r with
    | some v => updateField m v uid ts
    | none => m
  | _, _ => m

/-- The full scan of `analyze_data` for one identifier field. -/
def buildFieldMap (field : LogRecord → Option String) (data : List LogRecord) :
    List (String × List (String × Stats)) :=
  data.foldl (stepRecord field) []

/-- The shared-identifier filter of `analyze_data`
(multiAccountChecker.py:106-120): keep the identifier values whose inner
user dict has more than one entry. -/
def sharedOf (field : LogRecord → Option String) (data : List LogRecord) :
    List (String × List (String × Stats)) :=
  (buildFieldMap field data).filter (fun p => decide (1 < p.2.length))

/-- Model of `analyze_data` (multiAccountChecker.py:64-123): the early return for
empty input, then the three shared maps for hwid, socialClubId and ip. -/
def analyze_data (data : List LogRecord) :
    List (String × List (String × Stats)) ×
    List (String × List (String × Stats)) ×
    List (String × List (String × Stats)) :=
  if data.isEmpty then ([], [], [])
  else (sharedOf LogRecord.hwid data, sharedOf LogRecord.socialClubId data,
        sharedOf LogRecord.ip data)

/-- Does record `r` contribute an observation of value `v` for `field`?
If so, which user made it.  This is the specification-side reading of the
scan: a record counts only if its `userId` and `timestamp` are both
present and the field carries exactly the value `v`. -/
def contribUser (field : LogRecord → Option String) (v : String)
    (r : LogRecord) : Option String :=
  match r.userId, r.timestamp with
  | some uid, some _ => if field r = some v then some uid else none
  | _, _ => none

/-- The distinct users that contribute an observation of value `v` for
`field` in `data` — the claim's "distinct non-null workItemIds carrying
non-null timestamps". -/
def contributors (field : LogRecord → Option String) (v : String)
    (data : List LogRecord) : List String :=
  (data.filterMap (contribUser field v)).dedup

/-- The inner dict stored for identifier value `v` in a field map (empty if
`v` has no entry). -/
def innerFor :
    List (String × List (String × Stats)) → String → List (String × Stats)
  | [], _ => []
  | (w, inner) :: rest, v => if w = v then inner else innerFor rest v

/-- The key list of an association-list dict, in insertion order. -/
def keysOf {β : Type} (m : List (String × β)) : List String :=
  m.map Prod.fst

/-- The strict "ranks higher" relation of `print_results`
(multiAccountChecker.py:146): `a` sorts strictly before `b` under
`key=(count, last_seen), reverse=True` — greater count, or equal count and
lexically later `last_seen`. -/
def rankGt (a b : String × Stats) : Bool :=
  decide (b.2.count < a.2.count) ||
    (a.2.count == b.2.count && charsLt b.2.lastSeen.data a.2.lastSeen.data)

/-- Stable descending insertion: place `x` before the first element it
ranks strictly higher than, hence after every earlier element with an equal
key — exactly the stability guarantee of Python's `sorted`. -/
def insDesc (x : String × Stats) :
    List (String × Stats) → List (String × Stats)
  | [] => [x]
  | y :: ys => if rankGt x y then x :: y :: ys else y :: insDesc x ys

/-- Model of `sorted(user_details_map.items(), key=lambda item: (item[1]['count'],
item[1]['last_seen']), reverse=True)` (multiAccountChecker.py:146),
modelled as a stable descending sort of the insertion-ordered item list:
the output is a permutation of the input, sorted descending by
`(count, last_seen)`, equal keys keeping their original order. -/
def sorted_users (group : List (String × Stats)) : List (String × Stats) :=
  group.foldl (fun acc x => insDesc x acc) []

/-- The reporting step of `print_results` for one shared group
(multiAccountChecker.py:146-153): the first element of the sorted item list
is the likely-primary user; every other user id of the sorted list is
reported as a secondary user. -/
def report_group (group : List (String × Stats)) :
    Option (String × List String) :=
  match sorted_users group with
  | [] => none
  | (pid, _) :: _ =>
    some (pid, ((sorted_users group).filter (fun q => q.1 != pid)).map Prod.fst)

/-- A persisted snapshot entry for work item 1 with an empty log list. -/
def demoEntryOld : JValue := .obj [("user_id", .str "1"), ("logs", .arr [])]

/-- A later harvest entry for the same work item 1. -/
def demoEntryNew : JValue := .obj [("user_id", .str "1"), ("logs", .arr [.str "r1"])]

/-- Helper: a `take` never exceeds its bound. -/
theorem length_take_le' {α : Type} (n : Nat) (l : List α) :
    (l.take n).length ≤ n := by
  simp [List.length_take]

/-- Helper: whatever the event sequence and the current accumulator, both
return sites of the fetch loop respect the cap: the normal return is
truncated by `take`, and the exception return is only reachable while the
loop condition `len(user_logs) < max_logs` still holds. -/
theorem fetchRun_length_le (maxLogs : Nat) :
    ∀ (evs : List FetchEvent) (acc : List JValue),
      (fetchRun maxLogs evs acc).length ≤ maxLogs := by
  intro evs
  induction evs with
  | nil =>
    intro acc
    unfold fetchRun
    split
    · exact length_take_le' _ _
    · exact length_take_le' _ _
  | cons e rest ih =>
    intro acc
    unfold fetchRun
    split
    · exact length_take_le' _ _
    · next hlen =>
      split
      · exact length_take_le' _ _
      · exact Nat.le_of_lt (Nat.lt_of_not_le hlen)
      · exact length_take_le' _ _
      · exact length_take_le' _ _
      · exact length_take_le' _ _
      · next recs2 rest2 heq =>
        injection heq with h1 h2
        subst h2
        split
        · exact length_take_le' _ _
        · exact ih _

/-- C4: for every per-item cap and every sequence of page observations the
fetch loop makes — including runs ending in the exception path that
returns accumulated results untruncated — the log list returned by
`search_and_fetch_logs_for_id` never contains more than the cap many
records. -/
theorem c4_cap_enforced :
    ∀ (maxLogs : Nat) (evs : List FetchEvent),
      (fetchRun maxLogs evs []).length ≤ maxLogs :=
  fun maxLogs evs => fetchRun_length_le maxLogs evs []

/-- C10: `load_processed_user_ids` is total over every modelled file state
and returns the empty set for an absent file and for a file whose body
fails JSON parsing, so in those states the pending queue is the whole
input list (a corrupt checkpoint silently triggers full reprocessing). -/
theorem c10_load_processed_total :
    load_processed_user_ids .absent = [] ∧
    load_processed_user_ids (.content none) = [] ∧
    load_processed_user_ids .unreadable = [] ∧
    ∀ input : List String,
      pendingOf input (load_processed_user_ids .absent) = input ∧
      pendingOf input (load_processed_user_ids (.content none)) = input := by
  refine ⟨rfl, rfl, rfl, fun input => ⟨?_, ?_⟩⟩ <;>
    simp [pendingOf, load_processed_user_ids]

/-- C8: response decoding takes the `data` field's list from a dict with a
list-valued `data` key, takes a parsed list directly, and turns every
other shape — and a body that fails parsing — into `None`, which the
fetch loop consumes exactly like an empty page (a normal break, not an
error). -/
theorem c8_decode_shapes :
    (∀ (fields : List (String × JValue)) (l : List JValue),
        lookupJ "data" fields = some (.arr l) →
        decodePage (some (.obj fields)) = some l) ∧
    (∀ l : List JValue, decodePage (some (.arr l)) = some l) ∧
    (decodePage none = none ∧ pageEventOf none = .emptyPage) ∧
    (∀ raw : JValue, (∀ l, raw ≠ .arr l) →
        (∀ fields, raw = .obj fields → ∀ l, lookupJ "data" fields ≠ some (.arr l)) →
        decodePage (some raw) = none ∧ pageEventOf (some raw) = .emptyPage) := by
  refine ⟨fun fields l h => by simp [decodePage, h], fun l => rfl, ⟨rfl, rfl⟩, ?_⟩
  intro raw h1 h2
  have hdec : decodePage (some raw) = none := by
    cases raw with
    | null => rfl
    | bool b => rfl
    | num n => rfl
    | str s => rfl
    | arr l => exact absurd rfl (h1 l)
    | obj fields =>
      simp only [decodePage]
      cases hl : lookupJ "data" fields with
      | none => rfl
      | some v =>
        cases v with
        | arr l => exact absurd hl (h2 fields rfl l)
        | null => rfl
        | bool b => rfl
        | num n => rfl
        | str s => rfl
        | obj g => rfl
  exact ⟨hdec, by simp [pageEventOf, hdec]⟩

/-- C8 witness: the three decode shapes at concrete inputs. -/
theorem c8_decode_shapes_witness :
    decodePage (some (.obj [("data", .arr [JValue.null])])) = some [JValue.null] ∧
    decodePage (some (.arr [JValue.null])) = some [JValue.null] ∧
    pageEventOf (some (.str "oops")) = .emptyPage :=
  ⟨c8_decode_shapes.1 _ _ rfl, c8_decode_shapes.2.1 _,
   (c8_decode_shapes.2.2.2 (.str "oops") (fun _ h => JValue.noConfusion h)
      (fun _ h => JValue.noConfusion h)).2⟩

/-- C1: the persist operation is not crash-atomic: for any prior store
content other than the empty file and any non-empty new serialization, a
crash immediately after `open(filename, 'w')` leaves the store as an empty
file — a state that is neither the prior content, nor the new content,
nor an absent file, i.e. a truncated, unparsable store. -/
theorem c1_persist_truncates :
    ∀ (old : Option (List Char)) (newContent : List Char),
      old ≠ some [] → newContent ≠ [] →
      some ([] : List Char) ∈ persistWriteStates old newContent ∧
      some ([] : List Char) ≠ old ∧
      some ([] : List Char) ≠ some newContent ∧
      some ([] : List Char) ≠ (none : Option (List Char)) := by
  intro old nc h1 h2
  refine ⟨?_, fun h => h1 h.symm, ?_, by simp⟩
  · exact List.mem_cons_of_mem _
      (List.mem_map.mpr ⟨0, List.mem_range.mpr (Nat.succ_pos _), by simp⟩)
  · intro h
    exact h2 ((Option.some.injEq _ _ ▸ h : ([] : List Char) = nc)).symm

/-- C1 witness: with prior content `[]` (an empty persisted list) and new
content `[9]`, the truncated empty file is a reachable crash state
distinct from both. -/
theorem c1_persist_truncates_witness :
    some ([] : List Char) ∈ persistWriteStates (some "[]".data) "[9]".data ∧
    some ([] : List Char) ≠ some "[]".data :=
  ⟨(c1_persist_truncates (some "[]".data) "[9]".data (by decide) (by decide)).1,
   (c1_persist_truncates (some "[]".data) "[9]".data (by decide) (by decide)).2.1⟩

/-- C2 counterexample: merging a batch that contains an already-present
WorkItemId does not overwrite the old entry — both entries survive the
append, so the result is not a mapping with unique WorkItemId keys. -/
theorem c2_counterexample_duplicate_key :
    mergeResults [demoEntryOld] [demoEntryNew] = [demoEntryOld, demoEntryNew] ∧
    demoEntryOld ∈ mergeResults [demoEntryOld] [demoEntryNew] ∧
    ¬ uniqueEntryKeys (mergeResults [demoEntryOld] [demoEntryNew]) := by
  refine ⟨rfl, by simp [mergeResults], ?_⟩
  intro h
  have hk : (mergeResults [demoEntryOld] [demoEntryNew]).filterMap entryKey
      = [JValue.str "1", JValue.str "1"] := rfl
  rw [uniqueEntryKeys, hk] at h
  exact (List.nodup_cons.mp h).1 (List.mem_singleton.mpr rfl)

/-- C2 amended: merging a completed batch into the snapshot is a plain
append (`final_results_list.extend(batch_results)`); every old entry is
retained, and the result has unique WorkItemId keys only under the
caller's precondition that the batch's keys are fresh. -/
theorem c2_merge_is_append :
    ∀ (snapshot newEntries : List JValue),
      mergeResults snapshot newEntries = snapshot ++ newEntries ∧
      (∀ e ∈ snapshot, e ∈ mergeResults snapshot newEntries) ∧
      (uniqueEntryKeys snapshot → uniqueEntryKeys newEntries →
        (∀ k ∈ snapshot.filterMap entryKey, k ∉ newEntries.filterMap entryKey) →
        uniqueEntryKeys (mergeResults snapshot newEntries)) := by
  intro s n
  refine ⟨rfl, fun e he => List.mem_append_left _ he, fun h1 h2 hd => ?_⟩
  show ((s ++ n).filterMap entryKey).Nodup
  rw [List.filterMap_append]
  exact List.nodup_append.mpr ⟨h1, h2, hd⟩

/-- C2 witness: appending a fresh-key batch preserves key uniqueness. -/
theorem c2_merge_is_append_witness :
    uniqueEntryKeys (mergeResults [demoEntryOld] []) :=
  (c2_merge_is_append [demoEntryOld] []).2.2
    (by show (List.filterMap entryKey [demoEntryOld]).Nodup
        rw [show List.filterMap entryKey [demoEntryOld] = [JValue.str "1"] from rfl]
        exact List.nodup_singleton _)
    List.nodup_nil
    (by simp)

/-- Helper: the credential guard is true exactly for a missing/empty
credential or a placeholder-substring hit. -/
theorem credentials_abort_iff (u p : Option String) :
    credentials_abort u p = true ↔
      (u = none ∨ u = some "" ∨ p = none ∨ p = some "" ∨
       (∃ s, u = some s ∧ containsSub "YOUR_USERNAME".data s.data = true) ∨
       (∃ s, p = some s ∧ containsSub "YOUR_PASSWORD".data s.data = true)) := by
  cases u with
  | none => simp [credentials_abort, pyFalsy]
  | some us =>
    cases p with
    | none => simp [credentials_abort, pyFalsy]
    | some ps =>
      simp only [credentials_abort, pyFalsy, Bool.or_eq_true, beq_iff_eq,
        Option.getD_some, Option.some.injEq, reduceCtorEq, false_or,
        exists_eq_left']
      tauto

/-- Helper: the preflight aborts (exit 1, before any WebDriver is created)
exactly when the credential guard fires. -/
theorem main_preflight_abort_iff (u p : Option String) (tokens : List String)
    (store : FileState) :
    main_preflight u p tokens store = .abortMissingCredentials ↔
      credentials_abort u p = true := by
  unfold main_preflight
  by_cases h : credentials_abort u p = true
  · simp [h]
  · rw [if_neg h]
    constructor
    · intro hh
      dsimp only at hh
      split at hh
      · exact absurd hh (by simp)
      · split at hh <;> exact absurd hh (by simp)
    · intro hh; exact absurd hh h

/-- C9 counterexample: a username that merely contains the placeholder as a
substring (but equals no placeholder and is non-empty) still aborts the
run, contradicting the claim's "equals a known placeholder" reading. -/
theorem c9_counterexample_substring :
    main_preflight (some "xYOUR_USERNAMEz") (some "hunter2") ["1"] .absent
        = .abortMissingCredentials ∧
    ¬ claimCredentialAbort (some "xYOUR_USERNAMEz") (some "hunter2") := by
  constructor
  · rfl
  · decide

/-- C9 amended: the run aborts with a non-zero exit before creating any
session iff the username is missing or empty, the password is missing or
empty, the username contains the substring `YOUR_USERNAME`, or the
password contains the substring `YOUR_PASSWORD`. -/
theorem c9_abort_characterisation :
    ∀ (u p : Option String) (tokens : List String) (store : FileState),
      main_preflight u p tokens store = .abortMissingCredentials ↔
        (u = none ∨ u = some "" ∨ p = none ∨ p = some "" ∨
         (∃ s, u = some s ∧ containsSub "YOUR_USERNAME".data s.data = true) ∨
         (∃ s, p = some s ∧ containsSub "YOUR_PASSWORD".data s.data = true)) :=
  fun u p tokens store =>
    (main_preflight_abort_iff u p tokens store).trans (credentials_abort_iff u p)

/-- C9 witness: a run with well-formed credentials does not abort, and one
with an empty password does. -/
theorem c9_abort_characterisation_witness :
    main_preflight (some "admin") (some "s3cret") ["1"] .absent
        ≠ .abortMissingCredentials ∧
    main_preflight (some "admin") (some "") ["1"] .absent
        = .abortMissingCredentials := by
  constructor
  · intro h
    have := (c9_abort_characterisation (some "admin") (some "s3cret") ["1"] .absent).mp h
    revert this
    decide
  · exact (c9_abort_characterisation (some "admin") (some "") ["1"] .absent).mpr
      (by tauto)

/-- Helper: concatenating the `K` contiguous slices of width `c` recovers
the first `K * c` elements. -/
theorem flatten_slices (c : Nat) (l : List String) :
    ∀ K : Nat,
      ((List.range K).map (fun i => (l.drop (i * c)).take c)).flatten
        = l.take (K * c) := by
  intro K
  induction K with
  | zero => simp
  | succ K ih =>
    rw [List.range_succ, List.map_append, List.flatten_append]
    simp only [List.map_cons, List.map_nil, List.flatten_cons, List.flatten_nil,
      List.append_nil]
    rw [ih, Nat.succ_mul, List.take_add]

/-- Helper: `K` batches of ceiling width cover the whole queue. -/
theorem ids_per_driver_mul_ge (n K : Nat) (hK : 1 ≤ K) :
    n ≤ K * ids_per_driver n K := by
  unfold ids_per_driver
  have h := Nat.div_add_mod (n + K - 1) K
  have h2 : (n + K - 1) % K < K := Nat.mod_lt _ (by omega)
  revert h h2
  generalize K * ((n + K - 1) / K) = a
  generalize (n + K - 1) % K = r
  intro h h2
  omega

/-- Helper: the non-empty batches concatenate back to the pending queue. -/
theorem id_batches_flatten (pending : List String) (K : Nat) (hK : 1 ≤ K) :
    (id_batches pending K).flatten = pending := by
  unfold id_batches
  rw [List.flatten_filter_not_isEmpty, flatten_slices]
  exact List.take_of_length_le (ids_per_driver_mul_ge _ _ hK)

/-- C3: the pending queue is the input minus the done ids in input order;
the batches are the non-empty contiguous width-`ceil(|pending|/K)` slices
of the pending queue, their concatenation is exactly the pending queue,
and there are at most `K` of them. -/
theorem c3_work_distribution :
    ∀ (input done : List String) (K : Nat), 1 ≤ K →
      (∀ uid, uid ∈ pendingOf input done ↔ uid ∈ input ∧ uid ∉ done) ∧
      (pendingOf input done).Sublist input ∧
      (id_batches (pendingOf input done) K).flatten = pendingOf input done ∧
      (∀ b ∈ id_batches (pendingOf input done) K, ∃ i, i < K ∧
        b = ((pendingOf input done).drop
              (i * ids_per_driver (pendingOf input done).length K)).take
            (ids_per_driver (pendingOf input done).length K)) ∧
      (id_batches (pendingOf input done) K).length ≤ K := by
  intro input done K hK
  refine ⟨?_, List.filter_sublist _, id_batches_flatten _ _ hK, ?_, ?_⟩
  · intro uid; simp [pendingOf]
  · intro b hb
    unfold id_batches at hb
    rcases List.mem_map.mp (List.mem_of_mem_filter hb) with ⟨i, hi, rfl⟩
    exact ⟨i, List.mem_range.mp hi, rfl⟩
  · calc (id_batches (pendingOf input done) K).length
        ≤ ((List.range K).map (fun i =>
            ((pendingOf input done).drop
              (i * ids_per_driver (pendingOf input done).length K)).take
            (ids_per_driver (pendingOf input done).length K))).length :=
          List.length_filter_le _ _
      _ = K := by simp

/-- C3 witness: three ids, one done, two sessions. -/
theorem c3_work_distribution_witness :
    (1 : Nat) ≤ 2 ∧
    (id_batches (pendingOf ["1", "2", "3"] ["2"]) 2).flatten
      = pendingOf ["1", "2", "3"] ["2"] :=
  ⟨by decide, (c3_work_distribution ["1", "2", "3"] ["2"] 2 (by decide)).2.2.1⟩

/-- Helper: membership in Python `set.add`. -/
theorem mem_insertId (s : List String) (x y : String) :
    x ∈ insertId s y ↔ x ∈ s ∨ x = y := by
  unfold insertId
  by_cases h : y ∈ s
  · rw [if_pos h]
    constructor
    · exact Or.inl
    · rintro (hx | rfl) <;> [exact hx; exact h]
  · rw [if_neg h]
    simp

/-- Helper: the processed-id scan only ever grows the set. -/
theorem mem_idsFromEntries_of_mem :
    ∀ (entries : List JValue) (s : List String) (x : String),
      x ∈ s → x ∈ idsFromEntries s entries := by
  intro entries
  induction entries with
  | nil => intro s x hx; exact hx
  | cons e rest ih =>
    intro s x hx
    cases e with
    | obj fields =>
      simp only [idsFromEntries]
      cases lookupJ "user_id" fields with
      | none => exact ih s x hx
      | some v => exact ih _ x ((mem_insertId _ _ _).mpr (Or.inl hx))
    | null => exact ih s x hx
    | bool b => exact ih s x hx
    | num n => exact ih s x hx
    | str t => exact ih s x hx
    | arr l => exact ih s x hx

/-- Helper: every dict entry with a `user_id` key lands in the processed
set, whatever its other fields (in particular with an empty log list). -/
theorem idsFromEntries_has :
    ∀ (entries : List JValue) (s : List String)
      (fields : List (String × JValue)) (v : JValue),
      JValue.obj fields ∈ entries → lookupJ "user_id" fields = some v →
      strOf v ∈ idsFromEntries s entries := by
  intro entries
  induction entries with
  | nil => intro s fields v h; exact absurd h (List.not_mem_nil _)
  | cons e rest ih =>
    intro s fields v he hv
    rcases List.mem_cons.mp he with rfl | he2
    · simp only [idsFromEntries, hv]
      exact mem_idsFromEntries_of_mem rest _ _
        ((mem_insertId _ _ _).mpr (Or.inr rfl))
    · cases e with
      | obj g =>
        simp only [idsFromEntries]
        cases lookupJ "user_id" g with
        | none => exact ih s fields v he2 hv
        | some w => exact ih _ fields v he2 hv
      | null => exact ih s fields v he2 hv
      | bool b => exact ih s fields v he2 hv
      | num n => exact ih s fields v he2 hv
      | str t => exact ih s fields v he2 hv
      | arr l => exact ih s fields v he2 hv

/-- Helper: batches only contain pending ids. -/
theorem mem_of_mem_id_batches {pending : List String} {K : Nat}
    {b : List String} {x : String}
    (hb : b ∈ id_batches pending K) (hx : x ∈ b) : x ∈ pending := by
  unfold id_batches at hb
  rcases List.mem_map.mp (List.mem_of_mem_filter hb) with ⟨i, _, rfl⟩
  exact List.mem_of_mem_drop (List.mem_of_mem_take hx)

/-- C7: any snapshot entry that is a dict with a `user_id` key — even one
with an empty `logs` list — is classified as done by
`load_processed_user_ids`; done ids never appear in the pending queue nor
in any worker batch; and merging a later run's results loses no loaded
entry. -/
theorem c7_resume_skips_done :
    ∀ (entries : List JValue) (fields : List (String × JValue)) (v : JValue)
      (input : List String) (K : Nat) (loaded newEntries : List JValue),
      (JValue.obj fields ∈ entries → lookupJ "user_id" fields = some v →
        strOf v ∈ load_processed_user_ids (.content (some (.arr entries)))) ∧
      (∀ uid ∈ load_processed_user_ids (.content (some (.arr entries))),
        uid ∉ pendingOf input
            (load_processed_user_ids (.content (some (.arr entries)))) ∧
        ∀ b ∈ id_batches
            (pendingOf input
              (load_processed_user_ids (.content (some (.arr entries))))) K,
          uid ∉ b) ∧
      (∀ e ∈ loaded, e ∈ mergeResults loaded newEntries) := by
  intro entries fields v input K loaded newEntries
  refine ⟨fun he hv => idsFromEntries_has entries [] fields v he hv,
    fun uid huid => ⟨?_, ?_⟩, fun e he => List.mem_append_left _ he⟩
  · intro hpend
    rcases List.mem_filter.mp hpend with ⟨_, hdec⟩
    exact (of_decide_eq_true hdec) huid
  · intro b hb hxb
    have hpend := mem_of_mem_id_batches hb hxb
    rcases List.mem_filter.mp hpend with ⟨_, hdec⟩
    exact (of_decide_eq_true hdec) huid

/-- C7 witness: an entry with an empty log list is done and filtered out
of the pending queue. -/
theorem c7_resume_skips_done_witness :
    "7" ∈ load_processed_user_ids
        (.content (some (.arr [.obj [("user_id", .str "7"), ("logs", .arr [])]]))) ∧
    "7" ∉ pendingOf ["7", "8"]
        (load_processed_user_ids
          (.content (some (.arr [.obj [("user_id", .str "7"), ("logs", .arr [])]])))) := by
  have h := c7_resume_skips_done
    [.obj [("user_id", JValue.str "7"), ("logs", JValue.arr [])]]
    [("user_id", JValue.str "7"), ("logs", JValue.arr [])]
    (JValue.str "7") ["7", "8"] 1 [] []
  exact ⟨h.1 (by simp) rfl, (h.2.1 "7" (h.1 (by simp) rfl)).1⟩

/-- Helper: lexicographic comparison is irreflexive. -/
theorem charsLt_irrefl : ∀ l : List Char, charsLt l l = false := by
  intro l
  induction l with
  | nil => rfl
  | cons a as ih => simp [charsLt, ih]

/-- Helper: lexicographic comparison is asymmetric. -/
theorem charsLt_asymm :
    ∀ (a b : List Char), charsLt a b = true → charsLt b a = false := by
  intro a
  induction a with
  | nil =>
    intro b h
    cases b with
    | nil => rfl
    | cons y ys => rfl
  | cons x xs ih =>
    intro b h
    cases b with
    | nil => exact absurd h (by simp [charsLt])
    | cons y ys =>
      rcases Nat.lt_trichotomy x.toNat y.toNat with h1 | h1 | h1
      · simp [charsLt, h1, Nat.lt_asymm h1]
      · simp only [charsLt, h1, Nat.lt_irrefl, if_false] at h ⊢
        exact ih ys h
      · simp [charsLt, h1, Nat.lt_asymm h1] at h

/-- Helper: lexicographic comparison is transitive. -/
theorem charsLt_trans :
    ∀ (a b c : List Char),
      charsLt a b = true → charsLt b c = true → charsLt a c = true := by
  intro a
  induction a with
  | nil =>
    intro b c h1 h2
    cases c with
    | nil =>
      cases b with
      | nil => exact h1
      | cons y ys => exact absurd h2 (by simp [charsLt])
    | cons z zs => rfl
  | cons x xs ih =>
    intro b c h1 h2
    cases b with
    | nil => exact absurd h1 (by simp [charsLt])
    | cons y ys =>
      cases c with
      | nil => exact absurd h2 (by simp [charsLt])
      | cons z zs =>
        rcases Nat.lt_trichotomy x.toNat y.toNat with hxy | hxy | hxy <;>
          rcases Nat.lt_trichotomy y.toNat z.toNat with hyz | hyz | hyz
        · simp [charsLt, Nat.lt_trans hxy hyz, Nat.lt_asymm (Nat.lt_trans hxy hyz)]
        · simp [charsLt, hyz ▸ hxy, Nat.lt_asymm (hyz ▸ hxy)]
        · simp [charsLt, hyz, Nat.lt_asymm hyz] at h2
        · simp [charsLt, hxy ▸ hyz, Nat.lt_asymm (hxy ▸ hyz)]
        · simp only [charsLt, hxy, Nat.lt_irrefl, if_false] at h1
          simp only [charsLt, hyz, Nat.lt_irrefl, if_false] at h2
          have : x.toNat = z.toNat := hxy.trans hyz
          simp only [charsLt, this, Nat.lt_irrefl, if_false]
          exact ih ys zs h1 h2
        · simp [charsLt, hyz, Nat.lt_asymm hyz] at h2
        · simp [charsLt, hxy, Nat.lt_asymm hxy] at h1
        · simp [charsLt, hxy, Nat.lt_asymm hxy] at h1
        · simp [charsLt, hxy, Nat.lt_asymm hxy] at h1

/-- Helper: the ranking relation is irreflexive. -/
theorem rankGt_irrefl (a : String × Stats) : rankGt a a = false := by
  simp [rankGt, charsLt_irrefl]

/-- Helper: the ranking relation is asymmetric. -/
theorem rankGt_asymm (a b : String × Stats) (h : rankGt a b = true) :
    rankGt b a = false := by
  rw [Bool.eq_false_iff]
  intro hba
  simp only [rankGt, Bool.or_eq_true, decide_eq_true_eq, Bool.and_eq_true,
    beq_iff_eq] at h hba
  rcases h with h | ⟨he, hl⟩ <;> rcases hba with h2 | ⟨h2e, h2l⟩
  · omega
  · omega
  · omega
  · have hf := charsLt_asymm _ _ hl
    rw [h2l] at hf
    exact Bool.noConfusion hf

/-- Helper: the ranking relation is transitive. -/
theorem rankGt_trans (a b c : String × Stats) (h1 : rankGt a b = true)
    (h2 : rankGt b c = true) : rankGt a c = true := by
  simp only [rankGt, Bool.or_eq_true, decide_eq_true_eq, Bool.and_eq_true,
    beq_iff_eq] at h1 h2 ⊢
  rcases h1 with h1 | ⟨h1e, h1l⟩ <;> rcases h2 with h2 | ⟨h2e, h2l⟩
  · exact Or.inl (by omega)
  · exact Or.inl (by omega)
  · exact Or.inl (by omega)
  · exact Or.inr ⟨by omega, charsLt_trans _ _ _ h2l h1l⟩

/-- Helper: membership after an insertion step. -/
theorem mem_insDesc (x : String × Stats) :
    ∀ (l : List (String × Stats)) (z : String × Stats),
      z ∈ insDesc x l ↔ z ∈ x :: l := by
  intro l
  induction l with
  | nil => intro z; rfl
  | cons y ys ih =>
    intro z
    unfold insDesc
    by_cases h : rankGt x y = true
    · rw [if_pos h]
    · rw [if_neg h]
      simp only [List.mem_cons, ih z]
      tauto

/-- Helper: insertion preserves descending sortedness. -/
theorem pairwise_insDesc (x : String × Stats) :
    ∀ l : List (String × Stats),
      List.Pairwise (fun a b => rankGt b a = false) l →
      List.Pairwise (fun a b => rankGt b a = false) (insDesc x l) := by
  intro l
  induction l with
  | nil => intro _; exact List.pairwise_singleton _ _
  | cons y ys ih =>
    intro hp
    rcases List.pairwise_cons.mp hp with ⟨hy, hys⟩
    unfold insDesc
    by_cases hxy : rankGt x y = true
    · rw [if_pos hxy]
      refine List.pairwise_cons.mpr ⟨?_, hp⟩
      intro z hz
      rcases List.mem_cons.mp hz with rfl | hz2
      · exact rankGt_asymm _ _ hxy
      · rw [Bool.eq_false_iff]
        intro hzx
        have hzy := rankGt_trans _ _ _ hzx hxy
        rw [hy z hz2] at hzy
        exact Bool.noConfusion hzy
    · rw [if_neg hxy]
      refine List.pairwise_cons.mpr ⟨?_, ih hys⟩
      intro z hz
      rcases List.mem_cons.mp ((mem_insDesc x ys z).mp hz) with rfl | hz2
      · exact Bool.eq_false_iff.mpr hxy
      · exact hy z hz2

/-- Helper: insertion is a permutation of consing. -/
theorem insDesc_perm (x : String × Stats) :
    ∀ l : List (String × Stats), List.Perm (insDesc x l) (x :: l) := by
  intro l
  induction l with
  | nil => exact List.Perm.refl _
  | cons y ys ih =>
    unfold insDesc
    by_cases h : rankGt x y = true
    · rw [if_pos h]
    · rw [if_neg h]
      exact (ih.cons y).trans (List.Perm.swap x y ys)

/-- Helper: the sort permutes its input. -/
theorem sorted_users_perm_aux :
    ∀ (group acc : List (String × Stats)),
      List.Perm (List.foldl (fun acc x => insDesc x acc) acc group)
        (acc ++ group) := by
  intro group
  induction group with
  | nil => intro acc; simp
  | cons g gs ih =>
    intro acc
    have h1 : List.Perm
        (List.foldl (fun acc x => insDesc x acc) (insDesc g acc) gs)
        (insDesc g acc ++ gs) := ih _
    have h2 : List.Perm (insDesc g acc ++ gs) ((g :: acc) ++ gs) :=
      (insDesc_perm g acc).append_right gs
    have h3 : List.Perm ((g :: acc) ++ gs) (acc ++ g :: gs) :=
      List.perm_middle.symm
    exact (h1.trans h2).trans h3

/-- Helper: the sort output is descending under the ranking key. -/
theorem sorted_users_pairwise (group : List (String × Stats)) :
    List.Pairwise (fun a b => rankGt b a = false) (sorted_users group) := by
  unfold sorted_users
  suffices h : ∀ (l acc : List (String × Stats)),
      List.Pairwise (fun a b => rankGt b a = false) acc →
      List.Pairwise (fun a b => rankGt b a = false)
        (List.foldl (fun acc x => insDesc x acc) acc l) by
    exact h group [] List.Pairwise.nil
  intro l
  induction l with
  | nil => intro acc h; exact h
  | cons g gs ih => intro acc h; exact ih _ (pairwise_insDesc g acc h)

/-- C6: the reported likely-primary user of a shared group is maximal
under the (count descending, lastSeen descending, lexical) ordering — no
member of the group ranks strictly above it — and on the group
`{1: (3, 2024-01-02), 2: (3, 2024-01-03)}` the primary is user 2 with
user 1 reported as the only secondary. -/
theorem c6_primary_ranking :
    (∀ (group : List (String × Stats)) (p : String × Stats),
      (sorted_users group).head? = some p →
      ∀ q ∈ group, rankGt q p = false) ∧
    report_group [("1", ⟨3, "2024-01-02"⟩), ("2", ⟨3, "2024-01-03"⟩)]
      = some ("2", ["1"]) := by
  constructor
  · intro group p hp q hq
    have hmem : q ∈ sorted_users group := by
      unfold sorted_users
      exact ((sorted_users_perm_aux group []).mem_iff).mpr (by simpa using hq)
    have hpw := sorted_users_pairwise group
    cases hs : sorted_users group with
    | nil => rw [hs] at hp; exact Option.noConfusion hp
    | cons a t =>
      rw [hs] at hp hmem hpw
      have hap : a = p := Option.some.inj hp
      subst hap
      rcases List.mem_cons.mp hmem with rfl | hq2
      · exact rankGt_irrefl _
      · exact (List.pairwise_cons.mp hpw).1 q hq2
  · rfl

/-- C6 witness: in the tie-broken example group, user 1 does not outrank
the reported primary user 2. -/
theorem c6_primary_ranking_witness :
    rankGt ("1", ⟨3, "2024-01-02"⟩) ("2", ⟨3, "2024-01-03"⟩) = false :=
  c6_primary_ranking.1 [("1", ⟨3, "2024-01-02"⟩), ("2", ⟨3, "2024-01-03"⟩)]
    ("2", ⟨3, "2024-01-03"⟩) rfl ("1", ⟨3, "2024-01-02"⟩)
    (List.mem_cons_self _ _)

/-- Helper: keys of a dict cons. -/
theorem keysOf_cons {β : Type} (x : String × β) (l : List (String × β)) :
    keysOf (x :: l) = x.1 :: keysOf l := rfl

/-- Helper: updating an existing user leaves the key list unchanged. -/
theorem keysOf_updateUser_mem (uid ts : String) :
    ∀ inner : List (String × Stats), uid ∈ keysOf inner →
      keysOf (updateUser inner uid ts) = keysOf inner := by
  intro inner
  induction inner with
  | nil => intro h; exact absurd h (List.not_mem_nil _)
  | cons y ys ih =>
    obtain ⟨u, st⟩ := y
    intro h
    unfold updateUser
    by_cases hu : u = uid
    · rw [if_pos hu]; rfl
    · rw [if_neg hu]
      have h2 : uid ∈ keysOf ys := by
        rcases List.mem_cons.mp h with h3 | h3
        · exact absurd h3.symm hu
        · exact h3
      show u :: keysOf (updateUser ys uid ts) = u :: keysOf ys
      rw [ih h2]

/-- Helper: a fresh user is appended at the end of the key list. -/
theorem keysOf_updateUser_not_mem (uid ts : String) :
    ∀ inner : List (String × Stats), uid ∉ keysOf inner →
      keysOf (updateUser inner uid ts) = keysOf inner ++ [uid] := by
  intro inner
  induction inner with
  | nil => intro _; rfl
  | cons y ys ih =>
    obtain ⟨u, st⟩ := y
    intro h
    simp only [keysOf_cons, List.mem_cons, not_or] at h
    unfold updateUser
    rw [if_neg (Ne.symm h.1)]
    show u :: keysOf (updateUser ys uid ts) = (u :: keysOf ys) ++ [uid]
    rw [ih h.2]
    rfl

/-- Helper: user updates preserve key uniqueness. -/
theorem nodup_keysOf_updateUser (uid ts : String)
    (inner : List (String × Stats)) (h : (keysOf inner).Nodup) :
    (keysOf (updateUser inner uid ts)).Nodup := by
  by_cases hm : uid ∈ keysOf inner
  · rw [keysOf_updateUser_mem uid ts inner hm]; exact h
  · rw [keysOf_updateUser_not_mem uid ts inner hm]
    refine List.nodup_append.mpr ⟨h, List.nodup_singleton _, ?_⟩
    intro a ha hb
    rw [List.mem_singleton] at hb
    exact hm (hb ▸ ha)

/-- Helper: the key set after a user update is the old key set plus the
updated user. -/
theorem toFinset_keysOf_updateUser (uid ts : String)
    (inner : List (String × Stats)) :
    (keysOf (updateUser inner uid ts)).toFinset
      = insert uid (keysOf inner).toFinset := by
  by_cases hm : uid ∈ keysOf inner
  · rw [keysOf_updateUser_mem uid ts inner hm]
    exact (Finset.insert_eq_self.mpr (List.mem_toFinset.mpr hm)).symm
  · rw [keysOf_updateUser_not_mem uid ts inner hm, List.toFinset_append,
      Finset.insert_eq, Finset.union_comm]
    simp

/-- Helper: updating an existing identifier value leaves the outer key
list unchanged. -/
theorem keysOf_updateField_mem (v uid ts : String) :
    ∀ m : List (String × List (String × Stats)), v ∈ keysOf m →
      keysOf (updateField m v uid ts) = keysOf m := by
  intro m
  induction m with
  | nil => intro h; exact absurd h (List.not_mem_nil _)
  | cons y ys ih =>
    obtain ⟨w, inner⟩ := y
    intro h
    unfold updateField
    by_cases hw : w = v
    · rw [if_pos hw]; rfl
    · rw [if_neg hw]
      have h2 : v ∈ keysOf ys := by
        rcases List.mem_cons.mp h with h3 | h3
        · exact absurd h3.symm hw
        · exact h3
      show w :: keysOf (updateField ys v uid ts) = w :: keysOf ys
      rw [ih h2]

/-- Helper: a fresh identifier value is appended at the end of the outer
key list. -/
theorem keysOf_updateField_not_mem (v uid ts : String) :
    ∀ m : List (String × List (String × Stats)), v ∉ keysOf m →
      keysOf (updateField m v uid ts) = keysOf m ++ [v] := by
  intro m
  induction m with
  | nil => intro _; rfl
  | cons y ys ih =>
    obtain ⟨w, inner⟩ := y
    intro h
    simp only [keysOf_cons, List.mem_cons, not_or] at h
    unfold updateField
    rw [if_neg (Ne.symm h.1)]
    show w :: keysOf (updateField ys v uid ts) = (w :: keysOf ys) ++ [v]
    rw [ih h.2]
    rfl

/-- Helper: field updates preserve outer key uniqueness. -/
theorem nodup_keysOf_updateField (v uid ts : String)
    (m : List (String × List (String × Stats))) (h : (keysOf m).Nodup) :
    (keysOf (updateField m v uid ts)).Nodup := by
  by_cases hm : v ∈ keysOf m
  · rw [keysOf_updateField_mem v uid ts m hm]; exact h
  · rw [keysOf_updateField_not_mem v uid ts m hm]
    refine List.nodup_append.mpr ⟨h, List.nodup_singleton _, ?_⟩
    intro a ha hb
    rw [List.mem_singleton] at hb
    exact hm (hb ▸ ha)

/-- Helper: reading back the field just updated yields the updated inner
dict. -/
theorem innerFor_updateField_self (v uid ts : String) :
    ∀ m, innerFor (updateField m v uid ts) v
      = updateUser (innerFor m v) uid ts := by
  intro m
  induction m with
  | nil => simp [updateField, innerFor]
  | cons y rest ih =>
    obtain ⟨w, inner⟩ := y
    by_cases hw : w = v
    · subst hw
      simp [updateField, innerFor]
    · simp [updateField, innerFor, hw, ih]

/-- Helper: updating one identifier value does not change any other
value's inner dict. -/
theorem innerFor_updateField_other (v x uid ts : String) (hx : x ≠ v) :
    ∀ m, innerFor (updateField m v uid ts) x = innerFor m x := by
  intro m
  induction m with
  | nil => simp [updateField, innerFor, Ne.symm hx]
  | cons y rest ih =>
    obtain ⟨w, inner⟩ := y
    by_cases hw : w = v
    · subst hw
      simp [updateField, innerFor, Ne.symm hx]
    · simp [updateField, innerFor, hw, ih]

/-- Helper: one scan step adds exactly the record's contribution (if any)
to the key set of each identifier value's inner dict. -/
theorem stepRecord_keys_finset (f : LogRecord → Option String) (r : LogRecord)
    (m : List (String × List (String × Stats))) (v : String) :
    (keysOf (innerFor (stepRecord f m r) v)).toFinset
      = (keysOf (innerFor m v)).toFinset
          ∪ (contribUser f v r).toList.toFinset := by
  unfold stepRecord contribUser
  cases hu : r.userId with
  | none => simp
  | some uid =>
    cases ht : r.timestamp with
    | none => simp
    | some ts =>
      cases hf : f r with
      | none => simp [hf]
      | some w =>
        by_cases hv : v = w
        · subst hv
          rw [innerFor_updateField_self, toFinset_keysOf_updateUser]
          simp [hf, Finset.insert_eq, Finset.union_comm]
        · rw [innerFor_updateField_other w v uid ts hv]
          simp [Ne.symm hv]

/-- Helper: one scan step preserves uniqueness of each inner key list. -/
theorem stepRecord_keys_nodup (f : LogRecord → Option String) (r : LogRecord)
    (m : List (String × List (String × Stats))) (v : String)
    (h : (keysOf (innerFor m v)).Nodup) :
    (keysOf (innerFor (stepRecord f m r) v)).Nodup := by
  unfold stepRecord
  cases hu : r.userId with
  | none => exact h
  | some uid =>
    cases ht : r.timestamp with
    | none => exact h
    | some ts =>
      cases hf : f r with
      | none => exact h
      | some w =>
        by_cases hv : v = w
        · subst hv
          rw [innerFor_updateField_self]
          exact nodup_keysOf_updateUser uid ts _ h
        · rw [innerFor_updateField_other w v uid ts hv]
          exact h

/-- Helper: one scan step preserves uniqueness of the outer key list. -/
theorem stepRecord_outer_nodup (f : LogRecord → Option String) (r : LogRecord)
    (m : List (String × List (String × Stats))) (h : (keysOf m).Nodup) :
    (keysOf (stepRecord f m r)).Nodup := by
  unfold stepRecord
  cases hu : r.userId with
  | none => exact h
  | some uid =>
    cases ht : r.timestamp with
    | none => exact h
    | some ts =>
      cases hf : f r with
      | none => exact h
      | some w => exact nodup_keysOf_updateField w uid ts m h

/-- Helper: after the whole scan, the key set of value `v`'s inner dict is
the starting key set plus all of the data's contributions for `v`. -/
theorem foldl_step_keys_finset (f : LogRecord → Option String) :
    ∀ (data : List LogRecord) (m : List (String × List (String × Stats)))
      (v : String),
      (keysOf (innerFor (List.foldl (stepRecord f) m data) v)).toFinset
        = (keysOf (innerFor m v)).toFinset
            ∪ (data.filterMap (contribUser f v)).toFinset := by
  intro data
  induction data with
  | nil => intro m v; simp
  | cons r rest ih =>
    intro m v
    rw [List.foldl_cons, ih, stepRecord_keys_finset, List.filterMap_cons]
    cases h : contribUser f v r with
    | none => simp
    | some u =>
      simp only [Option.toList_some, List.toFinset_cons]
      rw [Finset.insert_eq, Finset.insert_eq, Finset.union_assoc]
      simp

/-- Helper: after the whole scan, each inner key list is duplicate-free. -/
theorem foldl_step_inner_nodup (f : LogRecord → Option String) :
    ∀ (data : List LogRecord) (m : List (String × List (String × Stats)))
      (v : String), (keysOf (innerFor m v)).Nodup →
      (keysOf (innerFor (List.foldl (stepRecord f) m data) v)).Nodup := by
  intro data
  induction data with
  | nil => intro m v h; exact h
  | cons r rest ih =>
    intro m v h
    exact ih _ v (stepRecord_keys_nodup f r m v h)

/-- Helper: after the whole scan, the outer key list is duplicate-free. -/
theorem foldl_step_outer_nodup (f : LogRecord → Option String) :
    ∀ (data : List LogRecord) (m : List (String × List (String × Stats))),
      (keysOf m).Nodup →
      (keysOf (List.foldl (stepRecord f) m data)).Nodup := by
  intro data
  induction data with
  | nil => intro m h; exact h
  | cons r rest ih =>
    intro m h
    exact ih _ (stepRecord_outer_nodup f r m h)

/-- Helper: with unique outer keys, a stored pair is what `innerFor`
reads back. -/
theorem innerFor_eq_of_mem :
    ∀ (m : List (String × List (String × Stats))) (v : String)
      (inner : List (String × Stats)),
      (keysOf m).Nodup → (v, inner) ∈ m → innerFor m v = inner := by
  intro m
  induction m with
  | nil => intro v inner _ h; exact absurd h (List.not_mem_nil _)
  | cons y rest ih =>
    obtain ⟨w, wi⟩ := y
    intro v inner hnd hm
    rcases List.mem_cons.mp hm with he | hm2
    · obtain ⟨rfl, rfl⟩ := Prod.mk.injEq .. ▸ he
      simp [innerFor]
    · have hv : v ∈ keysOf rest :=
        List.mem_map_of_mem Prod.fst hm2
      have hw : w ≠ v := by
        rintro rfl
        exact (List.nodup_cons.mp hnd).1 hv
      show (if w = v then wi else innerFor rest v) = inner
      rw [if_neg hw]
      exact ih v inner (List.nodup_cons.mp hnd).2 hm2

/-- Helper: a non-empty read-back means the pair is stored. -/
theorem mem_of_innerFor_ne :
    ∀ (m : List (String × List (String × Stats))) (v : String),
      innerFor m v ≠ [] → (v, innerFor m v) ∈ m := by
  intro m
  induction m with
  | nil => intro v h; exact absurd rfl h
  | cons y rest ih =>
    obtain ⟨w, wi⟩ := y
    intro v h
    by_cases hw : w = v
    · subst hw
      simp only [innerFor, if_pos rfl] at h ⊢
      exact List.mem_cons_self _ _
    · simp only [innerFor, if_neg hw] at h ⊢
      exact List.mem_cons_of_mem _ (ih v h)

/-- Helper: an identifier value is reported shared iff its scanned inner
dict has more than one user entry. -/
theorem mem_sharedOf_iff (f : LogRecord → Option String)
    (data : List LogRecord) (v : String) :
    v ∈ keysOf (sharedOf f data) ↔
      1 < (innerFor (buildFieldMap f data) v).length := by
  unfold sharedOf
  constructor
  · intro hv
    rcases List.mem_map.mp hv with ⟨pair, hpair, hfst⟩
    rcases List.mem_filter.mp hpair with ⟨hbm, hP⟩
    have hnd : (keysOf (buildFieldMap f data)).Nodup :=
      foldl_step_outer_nodup f data [] List.nodup_nil
    have : innerFor (buildFieldMap f data) pair.1 = pair.2 :=
      innerFor_eq_of_mem _ pair.1 pair.2 hnd (by simpa using hbm)
    rw [← hfst, this]
    exact of_decide_eq_true hP
  · intro h
    have hne : innerFor (buildFieldMap f data) v ≠ [] := by
      intro he
      rw [he] at h
      exact absurd h (by simp)
    have hm := mem_of_innerFor_ne _ v hne
    have hmem : (v, innerFor (buildFieldMap f data) v)
        ∈ List.filter (fun p => decide (1 < p.2.length)) (buildFieldMap f data) :=
      List.mem_filter.mpr ⟨hm, decide_eq_true h⟩
    exact List.mem_map.mpr ⟨_, hmem, rfl⟩

/-- Helper: the scanned inner dict of value `v` has exactly one entry per
distinct contributing user. -/
theorem innerFor_length_eq (f : LogRecord → Option String)
    (data : List LogRecord) (v : String) :
    (innerFor (buildFieldMap f data) v).length
      = (contributors f v data).length := by
  have h1 : (keysOf (innerFor (buildFieldMap f data) v)).toFinset
      = (data.filterMap (contribUser f v)).toFinset := by
    have h := foldl_step_keys_finset f data [] v
    simpa [buildFieldMap, innerFor, keysOf] using h
  have hnd : (keysOf (innerFor (buildFieldMap f data) v)).Nodup :=
    foldl_step_inner_nodup f data [] v (by simp [innerFor, keysOf])
  calc (innerFor (buildFieldMap f data) v).length
      = (keysOf (innerFor (buildFieldMap f data) v)).length :=
        (List.length_map _ _).symm
    _ = (keysOf (innerFor (buildFieldMap f data) v)).toFinset.card :=
        (List.toFinset_card_of_nodup hnd).symm
    _ = ((data.filterMap (contribUser f v)).toFinset).card := by rw [h1]
    _ = (data.filterMap (contribUser f v)).dedup.length :=
        List.card_toFinset _
    _ = (contributors f v data).length := rfl

/-- Helper: shared iff at least two distinct contributing users. -/
theorem sharedOf_iff_two (f : LogRecord → Option String)
    (data : List LogRecord) (v : String) :
    v ∈ keysOf (sharedOf f data) ↔ 2 ≤ (contributors f v data).length := by
  rw [mem_sharedOf_iff, innerFor_length_eq]
  omega

/-- C5: `analyze_data` reports an identifier value (for each of hwid,
socialClubId, ip) as shared iff it occurs with at least two distinct
non-null workItemIds on records that also carry a non-null timestamp, and
a record missing `userId` or `timestamp` leaves every field map
untouched. -/
theorem c5_sharing_threshold :
    ∀ (data : List LogRecord) (v : String),
      (v ∈ keysOf (analyze_data data).1 ↔
        2 ≤ (contributors LogRecord.hwid v data).length) ∧
      (v ∈ keysOf (analyze_data data).2.1 ↔
        2 ≤ (contributors LogRecord.socialClubId v data).length) ∧
      (v ∈ keysOf (analyze_data data).2.2 ↔
        2 ≤ (contributors LogRecord.ip v data).length) ∧
      (∀ (field : LogRecord → Option String)
         (m : List (String × List (String × Stats))) (r : LogRecord),
        r.userId = none ∨ r.timestamp = none → stepRecord field m r = m) := by
  intro data v
  have hskip : ∀ (field : LogRecord → Option String)
      (m : List (String × List (String × Stats))) (r : LogRecord),
      r.userId = none ∨ r.timestamp = none → stepRecord field m r = m := by
    intro field m r h
    unfold stepRecord
    rcases h with h | h
    · rw [h]
    · rw [h]
      cases r.userId <;> rfl
  by_cases hd : data.isEmpty
  · have hnil : data = [] := by
      cases data with
      | nil => rfl
      | cons a l => exact absurd hd (by simp)
    subst hnil
    refine ⟨?_, ?_, ?_, hskip⟩ <;>
      simp [analyze_data, contributors, keysOf]
  · have ha : analyze_data data
        = (sharedOf LogRecord.hwid data, sharedOf LogRecord.socialClubId data,
           sharedOf LogRecord.ip data) := by
      unfold analyze_data
      rw [if_neg (by simpa using hd)]
    rw [ha]
    exact ⟨sharedOf_iff_two _ data v, sharedOf_iff_two _ data v,
      sharedOf_iff_two _ data v, hskip⟩

/-- C5 witness: a record with no userId updates nothing. -/
theorem c5_sharing_threshold_witness :
    stepRecord LogRecord.hwid [] ⟨none, some "A", none, none, some "t"⟩ = [] :=
  (c5_sharing_threshold [] "A").2.2.2 LogRecord.hwid []
    ⟨none, some "A", none, none, some "t"⟩ (Or.inl rfl)
